import Mathlib

/-!
Verification of the `kale` keyboard-layout parser/serializer (src/lib.rs).

The development shallowly embeds the Rust source:

* JSON numbers (Rust `f64`) are modelled as exact fractions `Q` (an `Int`
  numerator over a `Nat` denominator, kept unnormalized).  All arithmetic the
  program performs on coordinates is addition of values obtained from finite
  decimal literals; `f64` rounding is not modelled (no claim depends on it).
  Equality tests the program performs on `f64` are modelled by the
  value-comparison `Q.qeq` (cross multiplication), mirroring `f64::eq`.
* `serde_json::Value` is modelled by `JValue`; `serde_json::from_str` by a
  fuel-indexed recursive-descent parser over `List Char` implementing the
  strict JSON grammar (integer vs. float literals are distinguished, as
  `serde_json::Number` does; `\uXXXX` escapes are decoded code-point wise
  without surrogate-pair combination, which no claim exercises).
* Rust strings are modelled as `List Char`.
* The `row.as_array().unwrap()` in `Keyboard::parse` is modelled by the
  distinguished error value `PErr.panicked`: the embedding of a Rust panic.
  All `serde_json` failures are collapsed into `PErr.decode`.
-/

namespace Kale

/-- Exact-fraction model of `f64`: an unnormalized `Int`-over-`Nat` fraction.
All values the program constructs have positive denominators. -/
structure Q where
  num : Int
  den : Nat
deriving DecidableEq

/-- The `f64` literal `0.0`. -/
def Q.zero : Q := ⟨0, 1⟩

/-- The `f64` literal `1.0`. -/
def Q.one : Q := ⟨1, 1⟩

/-- Addition of `f64` values (exact on the decimal fractions that occur). -/
def Q.add (a b : Q) : Q := ⟨a.num * b.den + b.num * a.den, a.den * b.den⟩

/-- Value equality of `f64` (cross multiplication, so `15/10 = 3/2`). -/
def Q.qeq (a b : Q) : Bool := a.num * (b.den : Int) == b.num * (a.den : Int)

/-- Value equality on `Option Q`, modelling `Option<f64>::eq`. -/
def optQeq : Option Q → Option Q → Bool
  | none, none => true
  | some a, some b => a.qeq b
  | _, _ => false

/-- The test `v < 0.0` (valid for the positive denominators the program uses). -/
def Q.isNeg (a : Q) : Bool := a.num < 0

/-- Embedding of a natural number as an `f64` value. -/
def Q.ofNat (n : Nat) : Q := ⟨n, 1⟩

/-- JSON values as decoded by `serde_json` into `Value`.  A number records
whether its literal was an integer (no fraction part, no exponent), matching
the `u64/i64` versus `f64` distinction of `serde_json::Number`. -/
inductive JValue where
  | null : JValue
  | bool (b : Bool) : JValue
  | num (isInt : Bool) (val : Q) : JValue
  | str (s : List Char) : JValue
  | arr (elems : List JValue) : JValue
  | obj (fields : List (List Char × JValue)) : JValue

/-- Model of `Value::is_object`. -/
def JValue.isObj : JValue → Bool
  | .obj _ => true
  | _ => false

/-- Model of `Value::is_string`. -/
def JValue.isStr : JValue → Bool
  | .str _ => true
  | _ => false

/-- JSON whitespace (space, tab, newline, carriage return, as in `serde_json`). -/
def isJsonWs (c : Char) : Bool := c = ' ' ∨ c = '\t' ∨ c = '\n' ∨ c = '\r'

/-- Drop leading JSON whitespace. -/
def skipWs (s : List Char) : List Char := s.dropWhile isJsonWs

/-- Decode one hexadecimal digit. -/
def hexDigit (c : Char) : Option Nat :=
  if '0' ≤ c ∧ c ≤ '9' then some (c.toNat - '0'.toNat)
  else if 'a' ≤ c ∧ c ≤ 'f' then some (c.toNat - 'a'.toNat + 10)
  else if 'A' ≤ c ∧ c ≤ 'F' then some (c.toNat - 'A'.toNat + 10)
  else none

/-- Body of a JSON string after the opening quote: returns the decoded
characters and the input remaining after the closing quote.  Unescaped
control characters are rejected, as `serde_json` does.  Unicode escapes
are decoded directly from the code unit (surrogate pairs not combined). -/
def parseStringBody : List Char → Option (List Char × List Char)
  | [] => none
  | '"' :: rest => some ([], rest)
  | '\\' :: e :: rest =>
    match e with
    | '"' => (parseStringBody rest).map (fun p => ('"' :: p.1, p.2))
    | '\\' => (parseStringBody rest).map (fun p => ('\\' :: p.1, p.2))
    | '/' => (parseStringBody rest).map (fun p => ('/' :: p.1, p.2))
    | 'b' => (parseStringBody rest).map (fun p => ('\x08' :: p.1, p.2))
    | 'f' => (parseStringBody rest).map (fun p => ('\x0c' :: p.1, p.2))
    | 'n' => (parseStringBody rest).map (fun p => ('\n' :: p.1, p.2))
    | 'r' => (parseStringBody rest).map (fun p => ('\r' :: p.1, p.2))
    | 't' => (parseStringBody rest).map (fun p => ('\t' :: p.1, p.2))
    | 'u' =>
      match rest with
      | h1 :: h2 :: h3 :: h4 :: rest' =>
        match hexDigit h1, hexDigit h2, hexDigit h3, hexDigit h4 with
        | some a, some b, some c, some d =>
          (parseStringBody rest').map
            (fun p => (Char.ofNat (a * 4096 + b * 256 + c * 16 + d) :: p.1, p.2))
        | _, _, _, _ => none
      | _ => none
    | _ => none
  | c :: rest =>
    if c.toNat < 32 then none
    else (parseStringBody rest).map (fun p => (c :: p.1, p.2))

/-- Digit characters consumed greedily. -/
def takeDigits (s : List Char) : List Char × List Char :=
  (s.takeWhile Char.isDigit, s.dropWhile Char.isDigit)

/-- Numeric value of a digit string. -/
def digitsToNat (l : List Char) : Nat :=
  l.foldl (fun acc c => acc * 10 + (c.toNat - '0'.toNat)) 0

/-- JSON number literal with the strict JSON rules (no leading zeros, at
least one digit in each part).  Returns the value as an exact fraction
together with the integer/float distinction that `serde_json` records. -/
def parseNumberBody (s : List Char) : Option ((Bool × Q) × List Char) := do
  let (neg, s₁) := match s with
    | '-' :: r => (true, r)
    | _ => (false, s)
  let (intDigits, s₂) ←
    match s₁ with
    | '0' :: r => some (['0'], r)
    | c :: _ => if c.isDigit then some (takeDigits s₁) else none
    | [] => none
  let (fracDigits, s₃) ←
    match s₂ with
    | '.' :: r =>
      let (ds, r') := takeDigits r
      if ds = [] then none else some (ds, r')
    | _ => some ([], s₂)
  let (expVal, s₄) ←
    match s₃ with
    | 'e' :: r | 'E' :: r =>
      let (esign, r₁) := match r with
        | '+' :: r' => (false, r')
        | '-' :: r' => (true, r')
        | _ => (false, r)
      let (ds, r₂) := takeDigits r₁
      if ds = [] then none
      else some (some (esign, digitsToNat ds), r₂)
    | _ => some (none, s₃)
  let mantissa : Nat := digitsToNat (intDigits ++ fracDigits)
  let baseNum : Int := if neg then -(mantissa : Int) else (mantissa : Int)
  let baseDen : Nat := 10 ^ fracDigits.length
  let q : Q := match expVal with
    | none => ⟨baseNum, baseDen⟩
    | some (true, e) => ⟨baseNum, baseDen * 10 ^ e⟩
    | some (false, e) => ⟨baseNum * ((10 ^ e : Nat) : Int), baseDen⟩
  let isInt : Bool := fracDigits = [] ∧ expVal = none
  some ((isInt, q), s₄)

/-- Insert a parsed object member, replacing an existing member with the
same key (the behaviour of the map underlying `serde_json::Value`). -/
def objInsert (fields : List (List Char × JValue)) (k : List Char) (v : JValue) :
    List (List Char × JValue) :=
  match fields with
  | [] => [(k, v)]
  | (k', v') :: rest =>
    if k' = k then (k', v) :: rest else (k', v') :: objInsert rest k v

mutual

/-- Recursive-descent JSON value, fuel-indexed.  Models the grammar
`serde_json::from_str` accepts; every recursive call first consumes at
least one input character, so any fuel exceeding the input length suffices. -/
def parseVal : Nat → List Char → Option (JValue × List Char)
  | 0, _ => none
  | fuel + 1, s =>
    match skipWs s with
    | 'n' :: 'u' :: 'l' :: 'l' :: r => some (.null, r)
    | 't' :: 'r' :: 'u' :: 'e' :: r => some (.bool true, r)
    | 'f' :: 'a' :: 'l' :: 's' :: 'e' :: r => some (.bool false, r)
    | '"' :: r =>
      match parseStringBody r with
      | some (cs, r') => some (.str cs, r')
      | none => none
    | '[' :: r =>
      match skipWs r with
      | ']' :: r' => some (.arr [], r')
      | _ =>
        match parseVal fuel r with
        | some (v, r₁) =>
          match parseArrRest fuel r₁ with
          | some (vs, r₂) => some (.arr (v :: vs), r₂)
          | none => none
        | none => none
    | '{' :: r =>
      match skipWs r with
      | '}' :: r' => some (.obj [], r')
      | _ =>
        match parseMember fuel r with
        | some ((k, v), r₁) =>
          match parseObjRest fuel r₁ with
          | some (ms, r₂) =>
            some (.obj (ms.foldl (fun acc m => objInsert acc m.1 m.2) [(k, v)]), r₂)
          | none => none
        | none => none
    | c :: r =>
      if c = '-' ∨ c.isDigit then
        match parseNumberBody (c :: r) with
        | some ((isInt, q), r') => some (.num isInt q, r')
        | none => none
      else none
    | [] => none

/-- Elements of an array after the first. -/
def parseArrRest : Nat → List Char → Option (List JValue × List Char)
  | 0, _ => none
  | fuel + 1, s =>
    match skipWs s with
    | ',' :: r =>
      match parseVal fuel r with
      | some (v, r₁) =>
        match parseArrRest fuel r₁ with
        | some (vs, r₂) => some (v :: vs, r₂)
        | none => none
      | none => none
    | ']' :: r => some ([], r)
    | _ => none

/-- One object member: a quoted key, a colon, and a value. -/
def parseMember : Nat → List Char → Option ((List Char × JValue) × List Char)
  | 0, _ => none
  | fuel + 1, s =>
    match skipWs s with
    | '"' :: r =>
      match parseStringBody r with
      | some (k, r₁) =>
        match skipWs r₁ with
        | ':' :: r₂ =>
          match parseVal fuel r₂ with
          | some (v, r₃) => some ((k, v), r₃)
          | none => none
        | _ => none
      | none => none
    | _ => none

/-- Members of an object after the first. -/
def parseObjRest : Nat → List Char → Option (List (List Char × JValue) × List Char)
  | 0, _ => none
  | fuel + 1, s =>
    match skipWs s with
    | ',' :: r =>
      match parseMember fuel r with
      | some (m, r₁) =>
        match parseObjRest fuel r₁ with
        | some (ms, r₂) => some (m :: ms, r₂)
        | none => none
      | none => none
    | '}' :: r => some ([], r)
    | _ => none

end

/-- Decode/panic outcome of `Keyboard::parse`: `decode` collapses every
`serde_json::Error`; `panicked` embeds the `row.as_array().unwrap()` panic. -/
inductive PErr where
  | decode : PErr
  | panicked : PErr
deriving DecidableEq

/-- Model of deserializing the repaired text into `Vec<Value>`: the full
text must be a single JSON array followed only by whitespace. -/
def fromStr (s : List Char) : Except PErr (List JValue) :=
  match parseVal (s.length + 2) s with
  | some (.arr vs, rest) => if skipWs rest = [] then .ok vs else .error .decode
  | some _ => .error .decode
  | none => .error .decode

/-- Model of `Background`: a name and a style, both required. -/
structure Background where
  name : List Char
  style : List Char
deriving DecidableEq

/-- Model of `KeyboardMetadata`: all fields optional. -/
structure KeyboardMetadata where
  author : Option (List Char)
  backcolor : Option (List Char)
  background : Option Background
  name : Option (List Char)
  notes : Option (List Char)
  radii : Option (List Char)
  switch_brand : Option (List Char)
  switch_mount : Option (List Char)
  switch_type : Option (List Char)
deriving DecidableEq

/-- Model of `KeyProperties`: fourteen transient (single-key) fields and seven
persistent fields, all optional.  `a`, `f`, `f2` are `u8` in the source and
are modelled as `Nat`. -/
structure KeyProperties where
  x : Option Q
  y : Option Q
  w : Option Q
  h : Option Q
  x2 : Option Q
  y2 : Option Q
  w2 : Option Q
  h2 : Option Q
  l : Option Bool
  n : Option Bool
  d : Option Bool
  r : Option Q
  rx : Option Q
  ry : Option Q
  c : Option (List Char)
  t : Option (List Char)
  g : Option Bool
  a : Option Nat
  f : Option Nat
  f2 : Option Nat
  p : Option (List Char)
deriving DecidableEq

/-- Model of `KeyProperties::default()`: every field `None`. -/
def KeyProperties.empty : KeyProperties :=
  ⟨none, none, none, none, none, none, none, none, none, none, none,
   none, none, none, none, none, none, none, none, none, none⟩

/-- Model of `Key`: legends, a properties snapshot, and coordinates. -/
structure Key where
  legends : List (List Char)
  properties : KeyProperties
  x : Q
  y : Q
deriving DecidableEq

/-- Model of `Keyboard`: optional metadata plus the placed keys. -/
structure Keyboard where
  metadata : Option KeyboardMetadata
  keys : List Key
deriving DecidableEq

deriving instance DecidableEq for Except

/-- Look up a field of a decoded JSON object by name. -/
def getField (fields : List (List Char × JValue)) (name : List Char) : Option JValue :=
  match fields with
  | [] => none
  | (k, v) :: rest => if k = name then some v else getField rest name

/-- serde decode of an `Option<f64>` struct field: absent or `null` gives
`None`; a number gives its value; anything else is a type error. -/
def getF64 (fields : List (List Char × JValue)) (name : List Char) :
    Except PErr (Option Q) :=
  match getField fields name with
  | none => .ok none
  | some .null => .ok none
  | some (.num _ q) => .ok (some q)
  | some _ => .error .decode

/-- serde decode of an `Option<bool>` struct field. -/
def getBool (fields : List (List Char × JValue)) (name : List Char) :
    Except PErr (Option Bool) :=
  match getField fields name with
  | none => .ok none
  | some .null => .ok none
  | some (.bool b) => .ok (some b)
  | some _ => .error .decode

/-- serde decode of an `Option<u8>` struct field: the number must have been
an integer literal in range; float literals are type errors. -/
def getU8 (fields : List (List Char × JValue)) (name : List Char) :
    Except PErr (Option Nat) :=
  match getField fields name with
  | none => .ok none
  | some .null => .ok none
  | some (.num isInt q) =>
    if isInt ∧ 0 ≤ q.num ∧ q.num ≤ 255 then .ok (some q.num.toNat)
    else .error .decode
  | some _ => .error .decode

/-- serde decode of an `Option<String>` struct field. -/
def getStr (fields : List (List Char × JValue)) (name : List Char) :
    Except PErr (Option (List Char)) :=
  match getField fields name with
  | none => .ok none
  | some .null => .ok none
  | some (.str s) => .ok (some s)
  | some _ => .error .decode

/-- serde decode of `Background` (both fields required). -/
def decodeBackground (v : JValue) : Except PErr Background :=
  match v with
  | .obj fields =>
    match getField fields "name".toList, getField fields "style".toList with
    | some (.str n), some (.str s) => .ok ⟨n, s⟩
    | _, _ => .error .decode
  | _ => .error .decode

/-- serde decode of an `Option<Background>` struct field. -/
def getBackground (fields : List (List Char × JValue)) (name : List Char) :
    Except PErr (Option Background) :=
  match getField fields name with
  | none => .ok none
  | some .null => .ok none
  | some v => (decodeBackground v).map some

/-- serde decode of `KeyboardMetadata` from a `Value`: must be an object;
unknown fields are ignored (serde default); recognized fields must
type-check. -/
def decodeMeta (v : JValue) : Except PErr KeyboardMetadata :=
  match v with
  | .obj fields => do
    let author ← getStr fields "author".toList
    let backcolor ← getStr fields "backcolor".toList
    let background ← getBackground fields "background".toList
    let name ← getStr fields "name".toList
    let notes ← getStr fields "notes".toList
    let radii ← getStr fields "radii".toList
    let switch_brand ← getStr fields "switch_brand".toList
    let switch_mount ← getStr fields "switch_mount".toList
    let switch_type ← getStr fields "switch_type".toList
    .ok ⟨author, backcolor, background, name, notes, radii,
         switch_brand, switch_mount, switch_type⟩
  | _ => .error .decode

/-- serde decode of `KeyProperties` from a `Value`: must be an object;
unknown fields are ignored; every recognized field is optional. -/
def decodeProps (v : JValue) : Except PErr KeyProperties :=
  match v with
  | .obj fields => do
    let x ← getF64 fields "x".toList
    let y ← getF64 fields "y".toList
    let w ← getF64 fields "w".toList
    let h ← getF64 fields "h".toList
    let x2 ← getF64 fields "x2".toList
    let y2 ← getF64 fields "y2".toList
    let w2 ← getF64 fields "w2".toList
    let h2 ← getF64 fields "h2".toList
    let l ← getBool fields "l".toList
    let n ← getBool fields "n".toList
    let d ← getBool fields "d".toList
    let r ← getF64 fields "r".toList
    let rx ← getF64 fields "rx".toList
    let ry ← getF64 fields "ry".toList
    let c ← getStr fields "c".toList
    let t ← getStr fields "t".toList
    let g ← getBool fields "g".toList
    let a ← getU8 fields "a".toList
    let f ← getU8 fields "f".toList
    let f2 ← getU8 fields "f2".toList
    let p ← getStr fields "p".toList
    .ok ⟨x, y, w, h, x2, y2, w2, h2, l, n, d, r, rx, ry, c, t, g, a, f, f2, p⟩
  | _ => .error .decode

/-- Model of `str::split('\n')`: the pieces between newline characters, including
empty pieces (an empty input yields one empty piece). -/
def splitNl : List Char → List (List Char)
  | [] => [[]]
  | '\n' :: rest => [] :: splitNl rest
  | c :: rest =>
    match splitNl rest with
    | [] => [[c]]
    | piece :: pieces => (c :: piece) :: pieces

/-- Whitespace trimmed by `str::trim` (restricted to the ASCII whitespace
that can occur here; the Unicode extras of `char::is_whitespace` are not
modelled). -/
def isTrimWs (c : Char) : Bool := c = ' ' ∨ c = '\t' ∨ c = '\n' ∨ c = '\r'

/-- Model of `str::trim`. -/
def trimChars (s : List Char) : List Char :=
  ((s.dropWhile isTrimWs).reverse.dropWhile isTrimWs).reverse

/-- Strip exactly one trailing comma, as the preprocessor does per line. -/
def stripTrailingComma (l : List Char) : List Char :=
  if l.getLast? = some ',' then l.dropLast else l

/-- State of the quote-insertion scan in `preprocess_raw_data`: whether the
cursor is inside a string, inside an object, the previous character, the
candidate property name accumulated since the last boundary, and the output
built so far (kept reversed). -/
structure PPState where
  inString : Bool
  inObject : Bool
  lastChar : Option Char
  propName : List Char
  result : List Char
deriving DecidableEq

/-- Initial scan state. -/
def ppInit : PPState := ⟨false, false, none, [], []⟩

/-- One step of the quote-insertion scan, one `match` arm per source arm;
`lastChar` is updated after the arm, as in the source. -/
def ppStep (st : PPState) (c : Char) : PPState :=
  let core : PPState :=
    if c = '"' then
      { st with inString := !st.inString, result := c :: st.result }
    else if c = '{' ∧ !st.inString then
      { st with inObject := true, result := c :: st.result }
    else if c = '}' ∧ !st.inString then
      { st with inObject := false, result := c :: st.result }
    else if c = ':' ∧ st.inObject ∧ !st.inString then
      if st.propName ≠ [] ∧ st.propName.head? ≠ some '"' then
        { st with
          result := c :: '"' :: (st.propName.reverse ++ '"' ::
            st.result.drop st.propName.length),
          propName := [] }
      else
        { st with result := c :: st.result, propName := [] }
    else if c = ',' ∧ st.inObject ∧ !st.inString then
      { st with result := c :: st.result, propName := [] }
    else
      let pn₀ :=
        if st.inObject ∧ !st.inString ∧
            (st.lastChar = none ∨ st.lastChar = some '{' ∨ st.lastChar = some ',')
        then [] else st.propName
      let pn₁ := if st.inObject ∧ !st.inString then pn₀ ++ [c] else pn₀
      { st with propName := pn₁, result := c :: st.result }
  { core with lastChar := some c }

/-- Model of `Keyboard::preprocess_raw_data`: trim and drop blank lines, strip one
trailing comma per line, join the lines with commas inside one enclosing
array, then run the quote-insertion scan. -/
def preprocess_raw_data (raw : List Char) : List Char :=
  let lines := ((splitNl raw).map trimChars).filter (fun l => l ≠ [])
  let lines := lines.map stripTrailingComma
  let processed := '[' :: (List.intercalate [','] lines) ++ [']']
  (processed.foldl ppStep ppInit).result.reverse

/-- Line-ending normalization done at the top of `Keyboard::parse`. -/
def normalizeNl : List Char → List Char
  | [] => []
  | '\r' :: '\n' :: rest => '\n' :: normalizeNl rest
  | '\r' :: rest => '\n' :: normalizeNl rest
  | c :: rest => c :: normalizeNl rest

/-- The persistent-field merge performed when a property-patch object is
decoded: a persistent field present in the patch replaces the running
value, an absent one keeps it; every transient field is overwritten
unconditionally with the patch's value. -/
def applyPatch (cur patch : KeyProperties) : KeyProperties :=
  { c := if patch.c.isSome then patch.c else cur.c
    t := if patch.t.isSome then patch.t else cur.t
    g := if patch.g.isSome then patch.g else cur.g
    a := if patch.a.isSome then patch.a else cur.a
    f := if patch.f.isSome then patch.f else cur.f
    f2 := if patch.f2.isSome then patch.f2 else cur.f2
    p := if patch.p.isSome then patch.p else cur.p
    x := patch.x
    y := patch.y
    w := patch.w
    h := patch.h
    x2 := patch.x2
    y2 := patch.y2
    w2 := patch.w2
    h2 := patch.h2
    l := patch.l
    n := patch.n
    d := patch.d
    r := patch.r
    rx := patch.rx
    ry := patch.ry }

/-- The transient reset performed after a legend is consumed. -/
def resetTransients (p : KeyProperties) : KeyProperties :=
  { p with
    x := none, y := none, w := none, h := none,
    x2 := none, y2 := none, w2 := none, h2 := none,
    l := none, n := none, d := none,
    r := none, rx := none, ry := none }

/-- Accumulator state while walking the items of one row. -/
structure RowAcc where
  currentX : Q
  props : KeyProperties
  keys : List Key
deriving DecidableEq

/-- The rotation test of `Keyboard::parse`:
`properties.r.is_some() || properties.rx.is_some() || properties.ry.is_some()`. -/
def hasRot (p : KeyProperties) : Bool :=
  p.r.isSome || p.rx.isSome || p.ry.isSome

/-- Processing of one row item (the body of the inner `for` loop of
`Keyboard::parse`): an object patches the accumulator, a string places a
key, anything else is ignored. -/
def processItem (currentY : Q) (acc : RowAcc) (item : JValue) :
    Except PErr RowAcc :=
  if item.isObj then do
    let patch ← decodeProps item
    .ok { acc with props := applyPatch acc.props patch }
  else
    match item with
    | .str s =>
      let legends := splitNl s
      let x₀ := acc.currentX.add (acc.props.x.getD Q.zero)
      let y₀ := currentY.add (acc.props.y.getD Q.zero)
      let xy :=
        if hasRot acc.props then
          (acc.props.x.getD Q.zero, acc.props.y.getD Q.zero)
        else (x₀, y₀)
      let key : Key := ⟨legends, acc.props, xy.1, xy.2⟩
      .ok ⟨xy.1.add (acc.props.w.getD Q.one),
           resetTransients acc.props,
           acc.keys ++ [key]⟩
    | _ => .ok acc

/-- Accumulator state across rows. -/
structure IState where
  currentY : Q
  props : KeyProperties
  keys : List Key
deriving DecidableEq

/-- Processing of one top-level row: `row.as_array().unwrap()` panics on a
non-array, then the items are folded with `current_x` starting at `0.0`. -/
def processRow (st : IState) (row : JValue) : Except PErr IState :=
  match row with
  | .arr items => do
    let acc ← items.foldlM (processItem st.currentY) ⟨Q.zero, st.props, st.keys⟩
    .ok ⟨st.currentY, acc.props, acc.keys⟩
  | _ => .error .panicked

/-- Processing of all rows: after each row `current_y` increases by `1.0`. -/
def processRows (st : IState) (rows : List JValue) : Except PErr IState :=
  rows.foldlM (fun st row => do
    let st' ← processRow st row
    .ok ⟨st'.currentY.add Q.one, st'.props, st'.keys⟩) st

/-- Initial interpreter state of `Keyboard::parse`. -/
def initState : IState := ⟨Q.zero, KeyProperties.empty, []⟩

/-- Model of `Keyboard::parse`: normalize line endings and trim, repair the text,
decode it as a `Vec<Value>`, split off a leading metadata object, then
interpret the remaining rows. -/
def Keyboard.parse (raw : List Char) : Except PErr Keyboard := do
  let data ← fromStr (preprocess_raw_data (trimChars (normalizeNl raw)))
  match data with
  | first :: rest =>
    if first.isObj then do
      let m ← decodeMeta first
      let st ← processRows initState rest
      .ok ⟨some m, st.keys⟩
    else do
      let st ← processRows initState (first :: rest)
      .ok ⟨none, st.keys⟩
  | [] => .ok ⟨none, []⟩

/-- Decimal digits of the fractional part `rem/den`, by long division with
fuel (every value the program can produce has a decimal denominator, so
the fuel is never exhausted on reachable values). -/
def fracDigits : Nat → Nat → Nat → List Char
  | 0, _, _ => []
  | _ + 1, 0, _ => []
  | fuel + 1, rem, den =>
    Nat.digitChar (rem * 10 / den) :: fracDigits fuel (rem * 10 % den) den

/-- Rendering of a nonnegative value, shortest-decimal style. -/
def fmtNumNN (num den : Nat) : List Char :=
  Nat.toDigits 10 (num / den) ++
    (if num % den = 0 then [] else '.' :: fracDigits 40 (num % den) den)

/-- Rendering of an `f64` value with Rust's `Display` (shortest decimal,
no trailing `.0` on integral values), exact on decimal fractions. -/
def fmtNum (q : Q) : List Char :=
  if q.num < 0 then '-' :: fmtNumNN (-q.num).toNat q.den
  else fmtNumNN q.num.toNat q.den

/-- One `name:value` fragment of a property-delta object, as produced by
the `format!` calls in `format_property_object`. -/
def fmtPart (tag : List Char) (v : Q) : List Char := tag ++ ':' :: fmtNum v

/-- The `if let Some(v) = props.f { parts.push(format!(..)) }` pattern of
`format_property_object`: one fragment when the field is set, else none. -/
def optPart (tag : List Char) : Option Q → List (List Char)
  | some v => [fmtPart tag v]
  | none => []

/-- The ordered `name:value` fragments that `format_property_object`
pushes into `parts`, one `if` per source `if`. -/
def partsOf (props last_props : KeyProperties) : List (List Char) :=
  if props.r.isSome ∨ props.rx.isSome ∨ props.ry.isSome then
    (if ¬(optQeq props.r last_props.r) then optPart "r".toList props.r else []) ++
    (if ¬(optQeq props.rx last_props.rx) then optPart "rx".toList props.rx else []) ++
    (if ¬(optQeq props.ry last_props.ry) then optPart "ry".toList props.ry else []) ++
    optPart "y".toList props.y ++
    optPart "x".toList props.x
  else
    (if ¬(optQeq props.y last_props.y) then optPart "y".toList props.y else []) ++
    (if ¬(optQeq props.x last_props.x) then optPart "x".toList props.x else [])

/-- Model of `format_property_object`: `None` when no fragment qualifies, otherwise
the fragments joined by commas inside braces. -/
def format_property_object (props last_props : KeyProperties) :
    Option (List Char) :=
  let parts := partsOf props last_props
  if parts = [] then none
  else some ('{' :: List.intercalate [','] parts ++ ['}'])

/-- JSON string escaping used by the metadata serializer. -/
def jsonEscapeChar (c : Char) : List Char :=
  if c = '"' then ['\\', '"']
  else if c = '\\' then ['\\', '\\']
  else if c = '\x08' then ['\\', 'b']
  else if c = '\x0c' then ['\\', 'f']
  else if c = '\n' then ['\\', 'n']
  else if c = '\r' then ['\\', 'r']
  else if c = '\t' then ['\\', 't']
  else if c.toNat < 32 then
    ['\\', 'u', '0', '0', Nat.digitChar (c.toNat / 16), Nat.digitChar (c.toNat % 16)]
  else [c]

/-- A JSON string literal. -/
def jsonStr (s : List Char) : List Char :=
  '"' :: (s.flatMap jsonEscapeChar) ++ ['"']

/-- An optional JSON string field value (`null` when absent). -/
def jsonOptStr : Option (List Char) → List Char
  | none => "null".toList
  | some s => jsonStr s

/-- serde serialization of `KeyboardMetadata` (all fields emitted in
declaration order, `None` as `null`). -/
def encodeMeta (m : KeyboardMetadata) : List Char :=
  "\x7b\"author\":".toList ++ jsonOptStr m.author ++
  ",\"backcolor\":".toList ++ jsonOptStr m.backcolor ++
  ",\"background\":".toList ++
    (match m.background with
     | none => "null".toList
     | some b => "\x7b\"name\":".toList ++ jsonStr b.name ++
                 ",\"style\":".toList ++ jsonStr b.style ++ ['}']) ++
  ",\"name\":".toList ++ jsonOptStr m.name ++
  ",\"notes\":".toList ++ jsonOptStr m.notes ++
  ",\"radii\":".toList ++ jsonOptStr m.radii ++
  ",\"switch_brand\":".toList ++ jsonOptStr m.switch_brand ++
  ",\"switch_mount\":".toList ++ jsonOptStr m.switch_mount ++
  ",\"switch_type\":".toList ++ jsonOptStr m.switch_type ++ ['}']

/-- Helper of `groupRows`: `cur` is the current row, reversed. -/
def groupRowsGo (cur : List Key) : List Key → List (List Key)
  | [] => [cur.reverse]
  | k :: rest =>
    if (match k.properties.y with
        | some v => v.isNeg
        | none => false) then
      cur.reverse :: groupRowsGo [k] rest
    else groupRowsGo (k :: cur) rest

/-- Row regrouping of `to_raw_format`: walking the keys in order, a key
whose stored transient `y` offset is negative starts a new row; the
`HashMap` keyed by the monotone row counter and then sorted is equivalent
to this in-order grouping. -/
def groupRows (keys : List Key) : List (List Key) :=
  match keys with
  | [] => []
  | k :: rest => groupRowsGo [k] rest

/-- Keys of one row rendered in order, threading `last_props`; each key is
preceded by its property-delta object when one is emitted, and keys are
separated by commas. -/
def renderKeys (last_props : KeyProperties) :
    List Key → List Char × KeyProperties
  | [] => ([], last_props)
  | k :: rest =>
    let delta := match format_property_object k.properties last_props with
      | some s => s ++ [',']
      | none => []
    let legend := '"' :: List.intercalate ['\\', 'n'] k.legends ++ ['"']
    let (restStr, lp) := renderKeys k.properties rest
    (delta ++ legend ++ (if rest = [] then [] else [',']) ++ restStr, lp)

/-- Rows rendered in order, separated by a comma and a newline. -/
def renderRows (last_props : KeyProperties) :
    List (List Key) → List Char
  | [] => []
  | row :: rest =>
    let (rowStr, lp) := renderKeys last_props row
    '[' :: rowStr ++ [']'] ++
      (if rest = [] then [] else [',', '\n']) ++ renderRows lp rest

/-- Model of `Keyboard::to_raw_format`: metadata (if any) followed by `,\n`, then
the regrouped rows with minimal property deltas. -/
def Keyboard.to_raw_format (kb : Keyboard) : List Char :=
  (match kb.metadata with
   | some m => encodeMeta m ++ [',', '\n']
   | none => []) ++
  renderRows KeyProperties.empty (groupRows kb.keys)

/-- A keyboard with two keys that both carry the stored transient offset
`y = -1` (exactly what parsing `[{y:-1},"A"],[{y:-1},"B"]` produces). -/
def kbTwoNegY : Keyboard :=
  ⟨none,
   [⟨[['A']], { KeyProperties.empty with y := some ⟨-1, 1⟩ }, ⟨0, 1⟩, ⟨-1, 1⟩⟩,
    ⟨[['B']], { KeyProperties.empty with y := some ⟨-1, 1⟩ }, ⟨0, 1⟩, ⟨0, 1⟩⟩]⟩

/-- The expected key of the amended concrete scenario 3: legend `K`,
transient offsets `x = 1`, `y = 2` in the snapshot, placed at `(1, 2)`. -/
def keyK : Key :=
  ⟨[['K']], { KeyProperties.empty with x := some ⟨1, 1⟩, y := some ⟨2, 1⟩ },
   ⟨1, 1⟩, ⟨2, 1⟩⟩

/-- The fourteen transient (single-key) fields of a `KeyProperties`, as a
tuple. -/
def transients (p : KeyProperties) :=
  (p.x, p.y, p.w, p.h, p.x2, p.y2, p.w2, p.h2, p.l, p.n, p.d, p.r, p.rx, p.ry)

/-- The all-unset transient tuple. -/
def noTransients : Option Q × Option Q × Option Q × Option Q × Option Q ×
    Option Q × Option Q × Option Q × Option Bool × Option Bool × Option Bool ×
    Option Q × Option Q × Option Q :=
  (none, none, none, none, none, none, none, none, none, none, none, none,
   none, none)

/-- Rotation-override well-formedness of a placed key (Claim C4): whenever
any rotation field is set in the key's snapshot, its coordinates are the
raw transient offsets. -/
def RotOK (k : Key) : Prop :=
  hasRot k.properties = true →
    k.x = k.properties.x.getD Q.zero ∧ k.y = k.properties.y.getD Q.zero

/-- The key parsed from `[{r:15,x:3,y:2},"A"]`: rotated, placed at the raw
offsets `(3, 2)`. -/
def keyRot : Key :=
  ⟨[['A']],
   { KeyProperties.empty with
     x := some ⟨3, 1⟩, y := some ⟨2, 1⟩, r := some ⟨15, 1⟩ },
   ⟨3, 1⟩, ⟨2, 1⟩⟩

/-- Selector for the seven persistent fields of `KeyProperties`. -/
inductive PField where
  | c : PField
  | t : PField
  | g : PField
  | a : PField
  | f : PField
  | f2 : PField
  | p : PField
deriving DecidableEq

/-- The value of a persistent field, injected into a common codomain. -/
def pget : PField → KeyProperties → Option (List Char ⊕ Bool ⊕ Nat)
  | .c, props => props.c.map Sum.inl
  | .t, props => props.t.map Sum.inl
  | .g, props => props.g.map (fun b => Sum.inr (Sum.inl b))
  | .a, props => props.a.map (fun v => Sum.inr (Sum.inr v))
  | .f, props => props.f.map (fun v => Sum.inr (Sum.inr v))
  | .f2, props => props.f2.map (fun v => Sum.inr (Sum.inr v))
  | .p, props => props.p.map Sum.inl

/-- Whether a row item leaves the given persistent field unset: `true`
unless the item decodes as a patch that sets the field. -/
def noSetB (fld : PField) (item : JValue) : Bool :=
  match decodeProps item with
  | .ok patch => (pget fld patch).isNone
  | .error _ => true

/-- Whether a row contains no patch setting the given persistent field. -/
def rowNoSetB (fld : PField) (row : JValue) : Bool :=
  match row with
  | .arr items => items.all (noSetB fld)
  | _ => true

/-- A running accumulator with keycap colour `red` already set, and the
state after it processes the single row `["A"]`. -/
def propsRed : KeyProperties :=
  { KeyProperties.empty with c := some "red".toList }

/-- Initial state of the Claim C6 witness run. -/
def stRed : IState := ⟨Q.zero, propsRed, []⟩

/-- Final state of the Claim C6 witness run. -/
def stRedAfter : IState :=
  ⟨⟨1, 1⟩, propsRed, [⟨[['A']], propsRed, ⟨0, 1⟩, ⟨0, 1⟩⟩]⟩

/-- Rows of the Claim C7 witness run: an empty row, then `["B"]`. -/
def rowsTwo : List JValue := [.arr [], .arr [.str ['B']]]

/-- Final state of the Claim C7 witness run: the key `B` sits in the
second row at `y = 1`, and the row counter has advanced to `2`. -/
def stTwo : IState :=
  ⟨⟨2, 1⟩, KeyProperties.empty, [⟨[['B']], KeyProperties.empty, ⟨0, 1⟩, ⟨1, 1⟩⟩]⟩

/-- Characters that pass unmolested through serialization, repair and JSON
string parsing: printable, not a quote, not a backslash. -/
def benignChar (c : Char) : Bool := 32 ≤ c.toNat ∧ c ≠ '"' ∧ c ≠ '\\'

/-- The recognized field names of `KeyboardMetadata`. -/
def metaFieldNames : List (List Char) :=
  ["author".toList, "backcolor".toList, "background".toList, "name".toList,
   "notes".toList, "radii".toList, "switch_brand".toList,
   "switch_mount".toList, "switch_type".toList]

/-- The all-`None` metadata record decoded from an object with no
recognized fields. -/
def emptyMeta : KeyboardMetadata :=
  ⟨none, none, none, none, none, none, none, none, none⟩

theorem Q.add_zero (a : Q) : a.add Q.zero = a := by
  cases a with
  | mk n d => simp [Q.add, Q.zero]

theorem Q.zero_add (a : Q) : Q.zero.add a = a := by
  cases a with
  | mk n d => simp [Q.add, Q.zero]

/-- Claim C2 (code bug): the claim states that `parse` never panics and
surfaces every failure as an `Err`; but on the input `"A"` — a bare
string as a top-level row entry after metadata extraction — the code
reaches `row.as_array().unwrap()` and panics (modelled by
`PErr.panicked`), contradicting the declared `Result` contract that every
other failure path honours via `?`. -/
theorem C2_bare_string_row_panics :
    Keyboard.parse "\"A\"".toList = .error .panicked := by decide

/-- Claim C3, counterexample: on the exact two-line input of the claim —
the line `{x:1,y:2},` followed by the line `"K"` — `parse` does not place
a key at `(1, 2)`: the repaired array's first element is an object, so it
is swallowed as metadata, and the remaining bare string `"K"` makes the
row loop panic.  No keyboard is produced at all. -/
theorem C3_counterexample :
    Keyboard.parse "{x:1,y:2},\n\"K\"".toList = .error .panicked := by decide

/-- Claim C3, amended: the preprocessor does rewrite the patch object to
`{"x":1,"y":2}` exactly as claimed; but the key is placed at
`x = 1, y = 2` only when the patch and the legend appear inside a row
array, as in `[{x:1,y:2},"K"]` — the claim's own two-line form is instead
parsed as metadata followed by a panic. -/
theorem C3_repair_and_row_patch :
    preprocess_raw_data "{x:1,y:2},\n\"K\"".toList =
      "[\x7b\"x\":1,\"y\":2\x7d,\"K\"]".toList ∧
    Keyboard.parse "[{x:1,y:2},\"K\"]".toList = .ok ⟨none, [keyK]⟩ := by
  constructor
  · decide
  · decide

/-- Claim C9: the inside-object state of the quote-insertion scan is a
single boolean, not a nesting counter: a closing brace outside a string
always clears it, including the closing brace of a nested object; hence
in `{a:{b:1},c:2}` the property name `c` of the enclosing object, read
after the nested object closed, is emitted without added quotes. -/
theorem C9_inside_object_flag_is_boolean :
    (∀ st : PPState, (ppStep { st with inString := false } '}').inObject = false) ∧
    preprocess_raw_data "{a:{b:1},c:2}".toList =
      "[\x7b\"a\":\x7b\"b\":1\x7d,c:2\x7d]".toList := by
  constructor
  · intro st; simp [ppStep]
  · decide

/-- Claim C1, counterexample: for the keyboard with two keys whose stored
transient `y` offset is `-1` (itself a parse output), serializing gives
two rows `[{y:-1},"A"],\n["B"]`; re-parsing succeeds but records no `y`
offset on the second key (the first serializer run suppressed the equal
delta), so re-serializing groups both keys into one row and yields the
different text `[{y:-1},"A","B"]`. -/
theorem C1_counterexample :
    (Keyboard.parse kbTwoNegY.to_raw_format).isOk = true ∧
    (Keyboard.parse kbTwoNegY.to_raw_format).map Keyboard.to_raw_format ≠
      .ok kbTwoNegY.to_raw_format := by decide

/-- Claim C5: transient-property isolation.  Decoding a patch object
overwrites every transient accumulator field with the patch's own value,
including unset ones, regardless of the previous accumulator; and
consuming a legend always leaves every transient field of the
accumulator unset, so a transient set for one key never leaks to the
next without an intervening patch. -/
theorem C5_transient_isolation :
    (∀ cur patch : KeyProperties,
       transients (applyPatch cur patch) = transients patch) ∧
    (∀ (y : Q) (acc : RowAcc) (s : List Char),
       (processItem y acc (.str s)).map (fun a => transients a.props) =
         .ok noTransients) :=
  ⟨fun _ _ => rfl, fun _ _ _ => rfl⟩

/-- Claim C8: every fragment a property-delta object can contain is one of
`r:`, `rx:`, `ry:`, `y:`, `x:` followed by a number — the persistent
fields `c,t,g,a,f,f2,p` never appear in serializer output. -/
theorem C8_delta_fields_positional_only :
    ∀ props last_props s, s ∈ partsOf props last_props →
      ∃ v : Q, s = fmtPart "r".toList v ∨ s = fmtPart "rx".toList v ∨
        s = fmtPart "ry".toList v ∨ s = fmtPart "y".toList v ∨
        s = fmtPart "x".toList v := by
  intro props last_props s hs
  have hopt : ∀ (tag : List Char) (o : Option Q), s ∈ optPart tag o →
      ∃ v : Q, s = fmtPart tag v := by
    intro tag o h
    cases o with
    | none => cases h
    | some v => exact ⟨v, List.mem_singleton.mp h⟩
  have hite : ∀ (c : Prop) [Decidable c] (l : List (List Char)),
      s ∈ (if c then l else []) → s ∈ l := by
    intro c _ l h
    split at h
    · exact h
    · cases h
  unfold partsOf at hs
  split at hs
  · rcases List.mem_append.mp hs with h | h
    · rcases List.mem_append.mp h with h | h
      · rcases List.mem_append.mp h with h | h
        · rcases List.mem_append.mp h with h | h
          · obtain ⟨v, hv⟩ := hopt _ _ (hite _ _ h)
            exact ⟨v, Or.inl hv⟩
          · obtain ⟨v, hv⟩ := hopt _ _ (hite _ _ h)
            exact ⟨v, Or.inr (Or.inl hv)⟩
        · obtain ⟨v, hv⟩ := hopt _ _ (hite _ _ h)
          exact ⟨v, Or.inr (Or.inr (Or.inl hv))⟩
      · obtain ⟨v, hv⟩ := hopt _ _ h
        exact ⟨v, Or.inr (Or.inr (Or.inr (Or.inl hv)))⟩
    · obtain ⟨v, hv⟩ := hopt _ _ h
      exact ⟨v, Or.inr (Or.inr (Or.inr (Or.inr hv)))⟩
  · rcases List.mem_append.mp hs with h | h
    · obtain ⟨v, hv⟩ := hopt _ _ (hite _ _ h)
      exact ⟨v, Or.inr (Or.inr (Or.inr (Or.inl hv)))⟩
    · obtain ⟨v, hv⟩ := hopt _ _ (hite _ _ h)
      exact ⟨v, Or.inr (Or.inr (Or.inr (Or.inr hv)))⟩

/-- Elimination for a successful `Except` bind. -/
theorem ebind_eq_ok {ε α β : Type} {x : Except ε α} {f : α → Except ε β}
    {b : β} (h : x >>= f = .ok b) : ∃ a, x = .ok a ∧ f a = .ok b := by
  cases x with
  | error e => simp [Bind.bind, Except.bind] at h
  | ok a => exact ⟨a, rfl, by simpa [Bind.bind, Except.bind] using h⟩

/-- A nil `processRows` run returns its input state. -/
theorem processRows_nil_ok {st st' : IState}
    (h : processRows st [] = .ok st') : st' = st := by
  simp only [processRows, List.foldlM_nil, pure, Except.pure,
    Except.ok.injEq] at h
  exact h.symm

/-- Elimination for a `processRows` run on a nonempty row list. -/
theorem processRows_cons_ok {st st' : IState} {row : JValue}
    {rest : List JValue} (h : processRows st (row :: rest) = .ok st') :
    ∃ st₁, processRow st row = .ok st₁ ∧
      processRows ⟨st₁.currentY.add Q.one, st₁.props, st₁.keys⟩ rest = .ok st' := by
  simp only [processRows, List.foldlM_cons] at h
  obtain ⟨st₂, h1, h2⟩ := ebind_eq_ok h
  obtain ⟨st₁, h3, h4⟩ := ebind_eq_ok h1
  cases h4
  exact ⟨st₁, h3, h2⟩

/-- Elimination for a successful `processRow`: the row must have been an
array and the state is the item fold's result with `current_y` kept. -/
theorem processRow_ok_elim {st st' : IState} {row : JValue}
    (h : processRow st row = .ok st') :
    ∃ items acc, row = .arr items ∧
      List.foldlM (processItem st.currentY) ⟨Q.zero, st.props, st.keys⟩ items =
        .ok acc ∧
      st' = ⟨st.currentY, acc.props, acc.keys⟩ := by
  cases row with
  | arr items =>
    simp only [processRow] at h
    obtain ⟨acc, h1, h2⟩ := ebind_eq_ok h
    cases h2
    exact ⟨items, acc, rfl, h1, rfl⟩
  | null => nomatch h
  | bool b => nomatch h
  | num i v => nomatch h
  | str s => nomatch h
  | obj fields => nomatch h

/-- Exhaustive description of a successful `processItem` step: a patch
object merges into the accumulator, a legend emits exactly one key (with
the rotation override deciding its coordinates) and resets the
transients, and any other item leaves the accumulator unchanged. -/
theorem processItem_ok_cases {y : Q} {acc : RowAcc} {item : JValue}
    {res : RowAcc} (h : processItem y acc item = .ok res) :
    (∃ patch, decodeProps item = .ok patch ∧
       res = { acc with props := applyPatch acc.props patch }) ∨
    (∃ s, item = .str s ∧
       ∃ k : Key, k.legends = splitNl s ∧ k.properties = acc.props ∧
         res = ⟨k.x.add (acc.props.w.getD Q.one), resetTransients acc.props,
                acc.keys ++ [k]⟩ ∧
         ((hasRot acc.props = true ∧ k.x = acc.props.x.getD Q.zero ∧
             k.y = acc.props.y.getD Q.zero) ∨
          (hasRot acc.props = false ∧
             k.x = acc.currentX.add (acc.props.x.getD Q.zero) ∧
             k.y = y.add (acc.props.y.getD Q.zero)))) ∨
    (item.isObj = false ∧ item.isStr = false ∧ res = acc) := by
  cases item with
  | obj fields =>
    simp only [processItem, JValue.isObj, if_true, reduceIte] at h
    obtain ⟨patch, hd, h⟩ := ebind_eq_ok h
    simp only [Except.ok.injEq] at h
    exact Or.inl ⟨patch, hd, h.symm⟩
  | str s =>
    simp only [processItem, JValue.isObj, Bool.false_eq_true, reduceIte] at h
    by_cases hr : hasRot acc.props
    · simp only [hr, if_true, reduceIte, Except.ok.injEq] at h
      refine Or.inr (Or.inl ⟨s, rfl,
        ⟨splitNl s, acc.props, acc.props.x.getD Q.zero, acc.props.y.getD Q.zero⟩,
        rfl, rfl, h.symm, Or.inl ⟨hr, rfl, rfl⟩⟩)
    · simp only [hr, Bool.false_eq_true, reduceIte, Except.ok.injEq] at h
      refine Or.inr (Or.inl ⟨s, rfl,
        ⟨splitNl s, acc.props, acc.currentX.add (acc.props.x.getD Q.zero),
         y.add (acc.props.y.getD Q.zero)⟩,
        rfl, rfl, h.symm, Or.inr ⟨by simpa using hr, rfl, rfl⟩⟩)
  | null => simp only [processItem, JValue.isObj, Bool.false_eq_true,
      reduceIte, Except.ok.injEq] at h; exact Or.inr (Or.inr ⟨rfl, rfl, h.symm⟩)
  | bool b => simp only [processItem, JValue.isObj, Bool.false_eq_true,
      reduceIte, Except.ok.injEq] at h; exact Or.inr (Or.inr ⟨rfl, rfl, h.symm⟩)
  | num i v => simp only [processItem, JValue.isObj, Bool.false_eq_true,
      reduceIte, Except.ok.injEq] at h; exact Or.inr (Or.inr ⟨rfl, rfl, h.symm⟩)
  | arr elems => simp only [processItem, JValue.isObj, Bool.false_eq_true,
      reduceIte, Except.ok.injEq] at h; exact Or.inr (Or.inr ⟨rfl, rfl, h.symm⟩)

/-- Folding `processItem` over a row's items preserves rotation-override
well-formedness of all accumulated keys. -/
theorem foldItems_rotOK (y : Q) :
    ∀ (items : List JValue) (acc res : RowAcc),
      List.foldlM (processItem y) acc items = .ok res →
      (∀ k ∈ acc.keys, RotOK k) → ∀ k ∈ res.keys, RotOK k := by
  intro items
  induction items with
  | nil =>
    intro acc res h hP
    simp only [List.foldlM_nil, pure, Except.pure, Except.ok.injEq] at h
    exact h ▸ hP
  | cons it rest ih =>
    intro acc res h hP
    rw [List.foldlM_cons] at h
    obtain ⟨acc', h1, h2⟩ := ebind_eq_ok h
    refine ih acc' res h2 ?_
    intro k hk
    rcases processItem_ok_cases h1 with ⟨patch, _, hres⟩ |
      ⟨s, _, k₀, _, hkp, hres, hplace⟩ | ⟨_, _, hres⟩
    · subst hres; exact hP k hk
    · subst hres
      rcases List.mem_append.mp hk with hk | hk
      · exact hP k hk
      · rcases List.mem_singleton.mp hk with rfl
        intro hrot
        rcases hplace with ⟨hr, hx, hy⟩ | ⟨hr, _, _⟩
        · rw [hkp]; exact ⟨hx, hy⟩
        · rw [hkp] at hrot; rw [hrot] at hr; cases hr
    · subst hres; exact hP k hk

/-- Processing one row preserves rotation-override well-formedness. -/
theorem processRow_rotOK {st st' : IState} {row : JValue}
    (h : processRow st row = .ok st')
    (hP : ∀ k ∈ st.keys, RotOK k) : ∀ k ∈ st'.keys, RotOK k := by
  obtain ⟨items, acc, rfl, hf, rfl⟩ := processRow_ok_elim h
  exact foldItems_rotOK st.currentY items _ acc hf hP

/-- Processing all rows preserves rotation-override well-formedness. -/
theorem processRows_rotOK :
    ∀ (rows : List JValue) (st st' : IState),
      processRows st rows = .ok st' →
      (∀ k ∈ st.keys, RotOK k) → ∀ k ∈ st'.keys, RotOK k := by
  intro rows
  induction rows with
  | nil =>
    intro st st' h hP
    rw [processRows_nil_ok h]
    exact hP
  | cons row rest ih =>
    intro st st' h hP
    obtain ⟨st₁, h1, h2⟩ := processRows_cons_ok h
    exact ih _ st' h2 (fun k hk => processRow_rotOK h1 hP k hk)

/-- Case analysis on the head of `Keyboard.parse`: a successful parse's
keys always come from a `processRows` run started at `initState`. -/
theorem parse_ok_keys {raw : List Char} {kb : Keyboard}
    (h : Keyboard.parse raw = .ok kb) :
    ∃ rows st, processRows initState rows = .ok st ∧ kb.keys = st.keys := by
  unfold Keyboard.parse at h
  obtain ⟨data, hf, h⟩ := ebind_eq_ok h
  cases data with
  | nil =>
    simp only [Except.ok.injEq] at h
    exact ⟨[], initState, rfl, by rw [← h]; rfl⟩
  | cons first rest =>
    by_cases ho : first.isObj
    · simp only [ho, if_true, reduceIte] at h
      obtain ⟨m, hm, h⟩ := ebind_eq_ok h
      obtain ⟨st, hp, h⟩ := ebind_eq_ok h
      simp only [Except.ok.injEq] at h
      exact ⟨rest, st, hp, by rw [← h]⟩
    · simp only [ho, Bool.false_eq_true, reduceIte] at h
      obtain ⟨st, hp, h⟩ := ebind_eq_ok h
      simp only [Except.ok.injEq] at h
      exact ⟨first :: rest, st, hp, by rw [← h]⟩

/-- Claim C4: for every key placed by a successful parse while any of the
rotation fields `r`, `rx`, `ry` was set, the key's coordinates are exactly
the raw transient `x`/`y` offsets (defaulting to `0.0`), without
`current_x`/`current_y` added. -/
theorem C4_rotation_override :
    ∀ (raw : List Char) (kb : Keyboard), Keyboard.parse raw = .ok kb →
      ∀ k ∈ kb.keys, hasRot k.properties = true →
        k.x = k.properties.x.getD Q.zero ∧ k.y = k.properties.y.getD Q.zero := by
  intro raw kb h k hk hrot
  obtain ⟨rows, st, hp, hkeys⟩ := parse_ok_keys h
  rw [hkeys] at hk
  exact processRows_rotOK rows initState st hp (by intro k hk; cases hk) k hk hrot

/-- Claim C4, witness: parsing `[{r:15,x:3,y:2},"A"]` yields the rotated
key `keyRot`, and the claim's theorem places it at its raw offsets. -/
theorem C4_rotation_override_witness :
    Keyboard.parse "[{r:15,x:3,y:2},\"A\"]".toList = .ok ⟨none, [keyRot]⟩ ∧
    (keyRot.x = keyRot.properties.x.getD Q.zero ∧
     keyRot.y = keyRot.properties.y.getD Q.zero) :=
  ⟨by decide,
   C4_rotation_override "[{r:15,x:3,y:2},\"A\"]".toList ⟨none, [keyRot]⟩
     (by decide) keyRot (by decide) (by decide)⟩

/-- A patch merge keeps a persistent field whose patch value is unset and
takes the patch value otherwise. -/
theorem pget_applyPatch (fld : PField) (cur patch : KeyProperties) :
    pget fld (applyPatch cur patch) = (pget fld patch).or (pget fld cur) := by
  cases fld with
  | c => cases hv : patch.c <;> simp [pget, applyPatch, hv, Option.or]
  | t => cases hv : patch.t <;> simp [pget, applyPatch, hv, Option.or]
  | g => cases hv : patch.g <;> simp [pget, applyPatch, hv, Option.or]
  | a => cases hv : patch.a <;> simp [pget, applyPatch, hv, Option.or]
  | f => cases hv : patch.f <;> simp [pget, applyPatch, hv, Option.or]
  | f2 => cases hv : patch.f2 <;> simp [pget, applyPatch, hv, Option.or]
  | p => cases hv : patch.p <;> simp [pget, applyPatch, hv, Option.or]

/-- The transient reset leaves every persistent field unchanged. -/
theorem pget_resetTransients (fld : PField) (props : KeyProperties) :
    pget fld (resetTransients props) = pget fld props := by
  cases fld <;> rfl

/-- Folding a row's items that never set a persistent field preserves its
accumulator value, and every newly placed key carries that value. -/
theorem foldItems_pget (fld : PField) (y : Q) :
    ∀ (items : List JValue) (acc res : RowAcc),
      items.all (noSetB fld) = true →
      List.foldlM (processItem y) acc items = .ok res →
      pget fld res.props = pget fld acc.props ∧
      ∀ k ∈ res.keys, k ∈ acc.keys ∨ pget fld k.properties = pget fld acc.props := by
  intro items
  induction items with
  | nil =>
    intro acc res _ h
    simp only [List.foldlM_nil, pure, Except.pure, Except.ok.injEq] at h
    subst h
    exact ⟨rfl, fun k hk => Or.inl hk⟩
  | cons it rest ih =>
    intro acc res hall h
    rw [List.all_cons, Bool.and_eq_true] at hall
    rw [List.foldlM_cons] at h
    obtain ⟨acc', h1, h2⟩ := ebind_eq_ok h
    have hstep : pget fld acc'.props = pget fld acc.props ∧
        ∀ k ∈ acc'.keys, k ∈ acc.keys ∨ pget fld k.properties = pget fld acc.props := by
      rcases processItem_ok_cases h1 with ⟨patch, hd, hres⟩ |
        ⟨s, _, k₀, _, hkp, hres, _⟩ | ⟨_, _, hres⟩
      · subst hres
        have : (pget fld patch).isNone = true := by
          have := hall.1
          rw [noSetB, hd] at this
          exact this
        constructor
        · rw [pget_applyPatch]
          cases ho : pget fld patch with
          | none => simp [Option.or]
          | some v => rw [ho] at this; cases this
        · exact fun k hk => Or.inl hk
      · subst hres
        refine ⟨pget_resetTransients fld acc.props, ?_⟩
        intro k hk
        rcases List.mem_append.mp hk with hk | hk
        · exact Or.inl hk
        · rcases List.mem_singleton.mp hk with rfl
          exact Or.inr (by rw [hkp])
      · subst hres
        exact ⟨rfl, fun k hk => Or.inl hk⟩
    obtain ⟨hres, hkeys⟩ := ih acc' res hall.2 h2
    refine ⟨hres.trans hstep.1, ?_⟩
    intro k hk
    rcases hkeys k hk with hk' | hk'
    · rcases hstep.2 k hk' with hk'' | hk''
      · exact Or.inl hk''
      · exact Or.inr hk''
    · exact Or.inr (hk'.trans hstep.1)

/-- Row-level persistence: a row that never sets a persistent field. -/
theorem processRow_pget {fld : PField} {st st' : IState} {row : JValue}
    (hrow : rowNoSetB fld row = true) (h : processRow st row = .ok st') :
    pget fld st'.props = pget fld st.props ∧
    ∀ k ∈ st'.keys, k ∈ st.keys ∨ pget fld k.properties = pget fld st.props := by
  obtain ⟨items, acc, rfl, hf, rfl⟩ := processRow_ok_elim h
  rw [rowNoSetB] at hrow
  exact foldItems_pget fld st.currentY items _ acc hrow hf

/-- Run-level persistence: rows that never set a persistent field. -/
theorem processRows_pget (fld : PField) :
    ∀ (rows : List JValue) (st st' : IState),
      rows.all (rowNoSetB fld) = true →
      processRows st rows = .ok st' →
      pget fld st'.props = pget fld st.props ∧
      ∀ k ∈ st'.keys, k ∈ st.keys ∨ pget fld k.properties = pget fld st.props := by
  intro rows
  induction rows with
  | nil =>
    intro st st' _ h
    rw [processRows_nil_ok h]
    exact ⟨rfl, fun k hk => Or.inl hk⟩
  | cons row rest ih =>
    intro st st' hall h
    rw [List.all_cons, Bool.and_eq_true] at hall
    obtain ⟨st₁, h1, h2⟩ := processRows_cons_ok h
    obtain ⟨hp1, hk1⟩ := processRow_pget hall.1 h1
    obtain ⟨hp2, hk2⟩ := ih _ st' hall.2 h2
    refine ⟨hp2.trans hp1, ?_⟩
    intro k hk
    rcases hk2 k hk with hk' | hk'
    · rcases hk1 k hk' with hk'' | hk''
      · exact Or.inl hk''
      · exact Or.inr hk''
    · exact Or.inr (hk'.trans hp1)

/-- Claim C6: once a persistent field (`c,t,g,a,f,f2,p`) is set, every
subsequently placed key's snapshot carries that value, across row
boundaries, until a later patch explicitly sets the same field: a patch
merge takes the patch's value exactly when present (absence keeps the
running value), and over any run whose patches never set the field, the
accumulator value is preserved and stamped onto every newly placed key. -/
theorem C6_persistent_propagation :
    (∀ (fld : PField) (cur patch : KeyProperties),
       pget fld (applyPatch cur patch) = (pget fld patch).or (pget fld cur)) ∧
    (∀ (fld : PField) (rows : List JValue) (st st' : IState),
       rows.all (rowNoSetB fld) = true →
       processRows st rows = .ok st' →
       pget fld st'.props = pget fld st.props ∧
       ∀ k ∈ st'.keys, k ∈ st.keys ∨
         pget fld k.properties = pget fld st.props) :=
  ⟨pget_applyPatch, fun fld rows st st' => processRows_pget fld rows st st'⟩

/-- Claim C6, witness: with keycap colour `red` in the accumulator, the
row `["A"]` (which sets nothing) yields a key stamped with that colour
and preserves the accumulator value. -/
theorem C6_persistent_propagation_witness :
    pget PField.c stRedAfter.props = pget PField.c stRed.props ∧
    ∀ k ∈ stRedAfter.keys, k ∈ stRed.keys ∨
      pget PField.c k.properties = pget PField.c stRed.props :=
  C6_persistent_propagation.2 PField.c [.arr [.str ['A']]] stRed stRedAfter
    (by decide) (by decide)

/-- Introduction for `processRows` on a nonempty row list. -/
theorem processRows_cons_intro {st st₁ st' : IState} {row : JValue}
    {rest : List JValue} (h1 : processRow st row = .ok st₁)
    (h2 : processRows ⟨st₁.currentY.add Q.one, st₁.props, st₁.keys⟩ rest = .ok st') :
    processRows st (row :: rest) = .ok st' := by
  simp only [processRows, List.foldlM_cons, h1, Bind.bind, Except.bind]
  exact h2

/-- A `processRows` run over an appended list splits at the boundary. -/
theorem processRows_append_split :
    ∀ (pre post : List JValue) (st st' : IState),
      processRows st (pre ++ post) = .ok st' →
      ∃ stm, processRows st pre = .ok stm ∧ processRows stm post = .ok st' := by
  intro pre
  induction pre with
  | nil => intro post st st' h; exact ⟨st, rfl, h⟩
  | cons row pre' ih =>
    intro post st st' h
    rw [List.cons_append] at h
    obtain ⟨st₁, h1, h2⟩ := processRows_cons_ok h
    obtain ⟨stm, h3, h4⟩ := ih post _ st' h2
    exact ⟨stm, processRows_cons_intro h1 h3, h4⟩

/-- The row counter advances by exactly one per processed row, regardless of
the row's content. -/
theorem processRows_currentY :
    ∀ (rows : List JValue) (st st' : IState),
      processRows st rows = .ok st' →
      st'.currentY = (fun q => q.add Q.one)^[rows.length] st.currentY := by
  intro rows
  induction rows with
  | nil => intro st st' h; rw [processRows_nil_ok h]; rfl
  | cons row rest ih =>
    intro st st' h
    obtain ⟨st₁, h1, h2⟩ := processRows_cons_ok h
    obtain ⟨items, acc, heq, hf, hst⟩ := processRow_ok_elim h1
    have hy : st₁.currentY = st.currentY := by rw [hst]
    rw [ih _ st' h2]
    simp only [List.length_cons, Function.iterate_succ_apply]
    rw [hy]

/-- The row counter starting from zero reaches exactly the row count. -/
theorem iterate_addOne_zero :
    ∀ n : Nat, (fun q : Q => q.add Q.one)^[n] Q.zero = ⟨(n : Int), 1⟩ := by
  intro n
  induction n with
  | zero => rfl
  | succ m ih =>
    rw [Function.iterate_succ_apply', ih]
    simp only [Q.add, Q.one, Q.mk.injEq]
    constructor
    · push_cast
      ring
    · simp

/-- Item folds only append keys. -/
theorem foldItems_keys_extend (y : Q) :
    ∀ (items : List JValue) (acc res : RowAcc),
      List.foldlM (processItem y) acc items = .ok res →
      ∃ new, res.keys = acc.keys ++ new := by
  intro items
  induction items with
  | nil =>
    intro acc res h
    simp only [List.foldlM_nil, pure, Except.pure, Except.ok.injEq] at h
    exact ⟨[], by rw [← h, List.append_nil]⟩
  | cons it rest ih =>
    intro acc res h
    rw [List.foldlM_cons] at h
    obtain ⟨acc', h1, h2⟩ := ebind_eq_ok h
    obtain ⟨new, hnew⟩ := ih acc' res h2
    rcases processItem_ok_cases h1 with ⟨patch, _, hres⟩ |
      ⟨s, _, k₀, _, _, hres, _⟩ | ⟨_, _, hres⟩
    · subst hres; exact ⟨new, hnew⟩
    · subst hres
      exact ⟨[k₀] ++ new, by rw [hnew]; simp⟩
    · subst hres; exact ⟨new, hnew⟩

/-- Every key a row fold emits while the transient `y` offset is unset and
no rotation field is set lands exactly on the row's `current_y`. -/
theorem foldItems_y_placement (y : Q) :
    ∀ (items : List JValue) (acc res : RowAcc),
      List.foldlM (processItem y) acc items = .ok res →
      ∀ k ∈ res.keys, k ∈ acc.keys ∨
        (k.properties.y = none → hasRot k.properties = false → k.y = y) := by
  intro items
  induction items with
  | nil =>
    intro acc res h
    simp only [List.foldlM_nil, pure, Except.pure, Except.ok.injEq] at h
    subst h
    exact fun k hk => Or.inl hk
  | cons it rest ih =>
    intro acc res h
    rw [List.foldlM_cons] at h
    obtain ⟨acc', h1, h2⟩ := ebind_eq_ok h
    have hstep : ∀ k ∈ acc'.keys, k ∈ acc.keys ∨
        (k.properties.y = none → hasRot k.properties = false → k.y = y) := by
      rcases processItem_ok_cases h1 with ⟨patch, _, hres⟩ |
        ⟨s, _, k₀, _, hkp, hres, hplace⟩ | ⟨_, _, hres⟩
      · subst hres; exact fun k hk => Or.inl hk
      · subst hres
        intro k hk
        rcases List.mem_append.mp hk with hk | hk
        · exact Or.inl hk
        · rcases List.mem_singleton.mp hk with rfl
          refine Or.inr ?_
          intro hky hkr
          rw [hkp] at hky hkr
          rcases hplace with ⟨hr, _, _⟩ | ⟨_, _, hy⟩
          · rw [hkr] at hr; cases hr
          · rw [hy, hky]
            exact Q.add_zero y
      · subst hres; exact fun k hk => Or.inl hk
    intro k hk
    rcases ih acc' res h2 k hk with hk' | hk'
    · exact hstep k hk'
    · exact Or.inr hk'

/-- The first item of a row being a legend, the first newly placed key's
`x` is exactly its own transient offset: `current_x` was reset to zero at
the row start (both with and without rotation). -/
theorem processRow_first_legend {st st' : IState} {s : List Char}
    {rest : List JValue}
    (h : processRow st (.arr (.str s :: rest)) = .ok st') :
    ∃ k krest, st'.keys = st.keys ++ k :: krest ∧
      k.x = k.properties.x.getD Q.zero := by
  simp only [processRow] at h
  obtain ⟨acc, hf, h2⟩ := ebind_eq_ok h
  cases h2
  rw [List.foldlM_cons] at hf
  obtain ⟨acc₁, hi, hrest⟩ := ebind_eq_ok hf
  rcases processItem_ok_cases hi with ⟨patch, hd, _⟩ |
    ⟨s', _, k₀, _, hkp, hres, hplace⟩ | ⟨_, hstr, _⟩
  · simp [decodeProps] at hd
  · subst hres
    obtain ⟨new, hnew⟩ := foldItems_keys_extend st.currentY rest _ acc hrest
    refine ⟨k₀, new, ?_, ?_⟩
    · rw [hnew]
      simp
    · rcases hplace with ⟨_, hx, _⟩ | ⟨_, hx, _⟩
      · rw [hx, hkp]
      · rw [hx, hkp]
        exact Q.zero_add _
  · simp [JValue.isStr] at hstr

/-- Claim C7: `current_x` restarts at zero for every row (a leading legend
is placed at exactly its own `x` offset); `current_y` advances by exactly
`1.0` per row regardless of content, so a parse of `N` rows ends with
`current_y = N`; and a key of row `i` placed with no transient `y` offset
and no rotation fields gets `y = i`. -/
theorem C7_row_accounting :
    (∀ (rows : List JValue) (st st' : IState),
       processRows st rows = .ok st' →
       st'.currentY = (fun q : Q => q.add Q.one)^[rows.length] st.currentY) ∧
    (∀ (rows : List JValue) (st' : IState),
       processRows initState rows = .ok st' →
       st'.currentY = ⟨(rows.length : Int), 1⟩) ∧
    (∀ (pre : List JValue) (row : JValue) (post : List JValue) (st' : IState),
       processRows initState (pre ++ row :: post) = .ok st' →
       ∃ st₁ st₂, processRows initState pre = .ok st₁ ∧
         processRow st₁ row = .ok st₂ ∧
         st₁.currentY = ⟨(pre.length : Int), 1⟩ ∧
         ∀ k ∈ st₂.keys, k ∉ st₁.keys → k.properties.y = none →
           hasRot k.properties = false → k.y = ⟨(pre.length : Int), 1⟩) ∧
    (∀ (st : IState) (s : List Char) (rest : List JValue) (st' : IState),
       processRow st (.arr (.str s :: rest)) = .ok st' →
       ∃ k krest, st'.keys = st.keys ++ k :: krest ∧
         k.x = k.properties.x.getD Q.zero) := by
  refine ⟨processRows_currentY, ?_, ?_, ?_⟩
  · intro rows st' h
    rw [processRows_currentY rows initState st' h]
    exact iterate_addOne_zero rows.length
  · intro pre row post st' h
    obtain ⟨stm, hpre, hrest⟩ := processRows_append_split pre (row :: post) initState st' h
    obtain ⟨st₂, h1, h2⟩ := processRows_cons_ok hrest
    have hy : stm.currentY = ⟨(pre.length : Int), 1⟩ := by
      rw [processRows_currentY pre initState stm hpre]
      exact iterate_addOne_zero pre.length
    refine ⟨stm, st₂, hpre, h1, hy, ?_⟩
    obtain ⟨items, acc, heq, hf, hst⟩ := processRow_ok_elim h1
    intro k hk hnot hky hkr
    rw [hst] at hk
    rcases foldItems_y_placement stm.currentY items _ acc hf k hk with hk' | hk'
    · exact absurd hk' hnot
    · rw [hk' hky hkr]
      exact hy
  · intro st s rest st' h
    exact processRow_first_legend h

/-- Claim C7, witness: the two-row input `[[],["B"]]` ends with
`current_y = 2`, confirming one increment per row even for empty rows. -/
theorem C7_row_accounting_witness :
    processRows initState rowsTwo = .ok stTwo ∧ stTwo.currentY = ⟨2, 1⟩ :=
  ⟨by decide, C7_row_accounting.2.1 rowsTwo stTwo (by decide)⟩

/-- Lookup misses a block of fields none of which carry the name. -/
theorem getField_eq_none {extra : List (List Char × JValue)} {name : List Char}
    (hex : ∀ p ∈ extra, p.1 ≠ name) : getField extra name = none := by
  induction extra with
  | nil => rfl
  | cons p rest ih =>
    simp only [getField]
    rw [if_neg (hex p (List.mem_cons_self p rest))]
    exact ih fun q hq => hex q (List.mem_cons_of_mem p hq)

/-- Appending fields that do not carry the name leaves lookup unchanged. -/
theorem getField_append {fields extra : List (List Char × JValue)}
    {name : List Char} (hex : ∀ p ∈ extra, p.1 ≠ name) :
    getField (fields ++ extra) name = getField fields name := by
  induction fields with
  | nil =>
    simp only [List.nil_append, getField]
    exact getField_eq_none hex
  | cons p rest ih =>
    rcases p with ⟨k, v⟩
    simp only [List.cons_append, getField]
    by_cases hk : k = name
    · simp [hk]
    · rw [if_neg hk, if_neg hk]
      exact ih

/-- String field decode ignores appended unrelated fields. -/
theorem getStr_append {fields extra : List (List Char × JValue)}
    {name : List Char} (hex : ∀ p ∈ extra, p.1 ≠ name) :
    getStr (fields ++ extra) name = getStr fields name := by
  unfold getStr
  rw [getField_append hex]

/-- Background field decode ignores appended unrelated fields. -/
theorem getBackground_append {fields extra : List (List Char × JValue)}
    {name : List Char} (hex : ∀ p ∈ extra, p.1 ≠ name) :
    getBackground (fields ++ extra) name = getBackground fields name := by
  unfold getBackground
  rw [getField_append hex]

/-- The metadata decoder silently ignores every unrecognized field. -/
theorem decodeMeta_ignores_unknown
    (fields extra : List (List Char × JValue))
    (hex : extra.all (fun p => decide (p.1 ∉ metaFieldNames)) = true) :
    decodeMeta (.obj (fields ++ extra)) = decodeMeta (.obj fields) := by
  have hne : ∀ name ∈ metaFieldNames, ∀ p ∈ extra, p.1 ≠ name := by
    intro name hname p hp heq
    rw [List.all_eq_true] at hex
    have := of_decide_eq_true (hex p hp)
    rw [heq] at this
    exact this hname
  simp only [decodeMeta]
  rw [getStr_append (hne "author".toList (by decide)),
    getStr_append (hne "backcolor".toList (by decide)),
    getBackground_append (hne "background".toList (by decide)),
    getStr_append (hne "name".toList (by decide)),
    getStr_append (hne "notes".toList (by decide)),
    getStr_append (hne "radii".toList (by decide)),
    getStr_append (hne "switch_brand".toList (by decide)),
    getStr_append (hne "switch_mount".toList (by decide)),
    getStr_append (hne "switch_type".toList (by decide))]

/-- Claim C10: whenever the repaired input decodes to a nonempty sequence
whose first element is an object that type-checks against
`KeyboardMetadata`, `parse` removes that element and decodes it as the
metadata, interpreting only the remaining rows; the decoder ignores every
unrecognized field; in particular an input beginning with the bare patch
`{x:1}` yields an all-`None` metadata and a key that never received the
patch. -/
theorem C10_metadata_extraction :
    (∀ (raw : List Char) (first : JValue) (restRows : List JValue)
       (m : KeyboardMetadata),
       fromStr (preprocess_raw_data (trimChars (normalizeNl raw))) =
         .ok (first :: restRows) →
       first.isObj = true →
       decodeMeta first = .ok m →
       Keyboard.parse raw =
         (processRows initState restRows).map fun st => ⟨some m, st.keys⟩) ∧
    (∀ fields extra : List (List Char × JValue),
       extra.all (fun p => decide (p.1 ∉ metaFieldNames)) = true →
       decodeMeta (.obj (fields ++ extra)) = decodeMeta (.obj fields)) ∧
    Keyboard.parse "{x:1},\n[\"A\"]".toList =
      .ok ⟨some emptyMeta, [⟨[['A']], KeyProperties.empty, Q.zero, Q.zero⟩]⟩ := by
  refine ⟨?_, decodeMeta_ignores_unknown, by decide⟩
  intro raw first restRows m hf ho hm
  unfold Keyboard.parse
  rw [hf]
  simp only [Bind.bind, Except.bind, ho, if_true, reduceIte, hm]
  cases hp : processRows initState restRows with
  | error e => simp [hp, Except.map]
  | ok st => simp [hp, Except.map]

/-- Claim C10, witness: the input `{x:1},\n["A"]` hits the metadata branch
with the patch object swallowed: the parse equals interpreting only the
row `["A"]` under all-`None` metadata. -/
theorem C10_metadata_extraction_witness :
    Keyboard.parse "{x:1},\n[\"A\"]".toList =
      (processRows initState [.arr [.str ['A']]]).map fun st =>
        ⟨some emptyMeta, st.keys⟩ :=
  C10_metadata_extraction.1 "{x:1},\n[\"A\"]".toList
    (.obj [("x".toList, .num true ⟨1, 1⟩)]) [.arr [.str ['A']]]
    emptyMeta rfl rfl rfl

/-- Claim C8, witness: for a patch with rotation angle `15` against the
all-unset baseline, the single fragment is `r:15`, which the claim's
theorem certifies has one of the five positional shapes. -/
theorem C8_delta_fields_positional_only_witness :
    "r:15".toList ∈
      partsOf { KeyProperties.empty with r := some ⟨15, 1⟩ } KeyProperties.empty ∧
    ∃ v : Q, "r:15".toList = fmtPart "r".toList v ∨
      "r:15".toList = fmtPart "rx".toList v ∨
      "r:15".toList = fmtPart "ry".toList v ∨
      "r:15".toList = fmtPart "y".toList v ∨
      "r:15".toList = fmtPart "x".toList v :=
  ⟨by decide,
   C8_delta_fields_positional_only
     { KeyProperties.empty with r := some ⟨15, 1⟩ } KeyProperties.empty
     "r:15".toList (by decide)⟩

theorem normalizeNl_eq_self :
    ∀ l : List Char, (∀ c ∈ l, c ≠ '\r') → normalizeNl l = l := by
  intro l
  induction l with
  | nil => intro _; rfl
  | cons c rest ih =>
    intro h
    have hc : c ≠ '\r' := h c (List.mem_cons_self c rest)
    have hrest := ih fun d hd => h d (List.mem_cons_of_mem c hd)
    cases rest with
    | nil => simp [normalizeNl, hc]
    | cons d rest' =>
      simp [normalizeNl, hc] at hrest ⊢
      exact hrest

theorem splitNl_eq_self :
    ∀ l : List Char, (∀ c ∈ l, c ≠ '\n') → splitNl l = [l] := by
  intro l
  induction l with
  | nil => intro _; rfl
  | cons c rest ih =>
    intro h
    have hc : c ≠ '\n' := h c (List.mem_cons_self c rest)
    have hrest := ih fun d hd => h d (List.mem_cons_of_mem c hd)
    simp [splitNl, hc, hrest]

theorem trimChars_bracketed (mid : List Char) :
    trimChars ('[' :: mid ++ [']']) = '[' :: mid ++ [']'] := by
  unfold trimChars
  have h1 : List.dropWhile isTrimWs ('[' :: mid ++ [']']) = '[' :: mid ++ [']'] := by
    simp [List.dropWhile_cons, isTrimWs]
  rw [h1]
  have h2 : ('[' :: mid ++ [']']).reverse = ']' :: (mid.reverse ++ ['[']) := by
    simp
  rw [h2]
  have h3 : List.dropWhile isTrimWs (']' :: (mid.reverse ++ ['['])) =
      ']' :: (mid.reverse ++ ['[']) := by
    simp [List.dropWhile_cons, isTrimWs]
  rw [h3, ← h2, List.reverse_reverse]


theorem ppStep_inString {st : PPState} {c : Char}
    (h1 : st.inString = true) (h2 : st.inObject = false)
    (hq : c ≠ '"') :
    ppStep st c = ⟨true, false, some c, st.propName, c :: st.result⟩ := by
  cases st with
  | mk i o lc pn res =>
    simp only at h1 h2
    subst h1; subst h2
    simp [ppStep, hq]

theorem ppScan_str :
    ∀ (cs : List Char), cs.all benignChar = true →
    ∀ st : PPState, st.inString = true → st.inObject = false →
      ∃ lc, cs.foldl ppStep st =
        ⟨true, false, lc, st.propName, cs.reverse ++ st.result⟩ := by
  intro cs
  induction cs with
  | nil =>
    intro _ st h1 h2
    refine ⟨st.lastChar, ?_⟩
    cases st with
    | mk i o lc pn res =>
      simp only at h1 h2
      subst h1; subst h2
      simp
  | cons c rest ih =>
    intro hb st h1 h2
    rw [List.all_cons, Bool.and_eq_true] at hb
    have hq : c ≠ '"' := by
      have := hb.1
      simp [benignChar] at this
      exact this.2.1
    rw [List.foldl_cons, ppStep_inString h1 h2 hq]
    obtain ⟨lc, hrec⟩ := ih hb.2 ⟨true, false, some c, st.propName, c :: st.result⟩ rfl rfl
    refine ⟨lc, ?_⟩
    rw [hrec]
    simp


theorem benign_not_nl {c : Char} (h : benignChar c = true) : c ≠ '\n' := by
  intro hc
  subst hc
  simp [benignChar] at h

theorem benign_not_cr {c : Char} (h : benignChar c = true) : c ≠ '\r' := by
  intro hc
  subst hc
  simp [benignChar] at h

theorem intercalate_single (sep x : List Char) : List.intercalate sep [x] = x := by
  simp [List.intercalate]

theorem preprocess_single (legend : List Char)
    (hb : legend.all benignChar = true) :
    preprocess_raw_data ('[' :: '"' :: legend ++ ['"', ']']) =
      '[' :: '[' :: '"' :: legend ++ ['"', ']', ']'] := by
  have hmem : ∀ c ∈ legend, benignChar c = true := by
    rw [List.all_eq_true] at hb
    exact hb
  have hnl : ∀ c ∈ ('[' :: '"' :: legend ++ ['"', ']']), c ≠ '\n' := by
    intro c hc heq
    subst heq
    rcases List.mem_cons.mp hc with h | hc
    · exact absurd h (by decide)
    rcases List.mem_cons.mp hc with h | hc
    · exact absurd h (by decide)
    rcases List.mem_append.mp hc with h | h
    · exact absurd (hmem _ h) (by decide)
    · exact absurd h (by decide)
  have hT : ('[' :: '"' :: legend ++ ['"', ']']) =
      '[' :: (('"' :: legend) ++ ['"']) ++ [']'] := by simp
  unfold preprocess_raw_data
  dsimp only
  rw [splitNl_eq_self _ hnl]
  rw [List.map_cons, List.map_nil, hT, trimChars_bracketed]
  have hne : ('[' :: (('"' :: legend) ++ ['"']) ++ [']']) ≠ [] := by simp
  rw [List.filter_cons_of_pos (by simp), List.filter_nil]
  have hlast : ('[' :: (('"' :: legend) ++ ['"']) ++ [']']).getLast? = some ']' := by
    rw [show ('[' :: (('"' :: legend) ++ ['"']) ++ [']']) =
      ('[' :: (('"' :: legend) ++ ['"'])) ++ [']'] from by simp]
    exact List.getLast?_concat _
  rw [List.map_cons, List.map_nil]
  rw [show stripTrailingComma ('[' :: (('"' :: legend) ++ ['"']) ++ [']']) =
      '[' :: (('"' :: legend) ++ ['"']) ++ [']'] from by
    unfold stripTrailingComma
    rw [hlast]
    simp]
  rw [intercalate_single]
  have hform : ('[' :: ('[' :: (('"' :: legend) ++ ['"']) ++ [']']) ++ [']']) =
      ['[', '[', '"'] ++ (legend ++ ['"', ']', ']']) := by simp
  rw [hform]
  rw [List.foldl_append]
  have h₀ : List.foldl ppStep ppInit ['[', '[', '"'] =
      ⟨true, false, some '"', [], ['"', '[', '[']⟩ := by decide
  rw [h₀, List.foldl_append]
  obtain ⟨lc, hscan⟩ := ppScan_str legend hb
    ⟨true, false, some '"', [], ['"', '[', '[']⟩ rfl rfl
  rw [hscan]
  have h₁ : List.foldl ppStep
      ⟨true, false, lc, [], legend.reverse ++ ['"', '[', '[']⟩ ['"', ']', ']'] =
      ⟨false, false, some ']', [],
        ']' :: ']' :: '"' :: (legend.reverse ++ ['"', '[', '['])⟩ := by
    simp [ppStep]
  rw [h₁]
  simp


theorem parseStringBody_benign :
    ∀ (legend rest : List Char), legend.all benignChar = true →
      parseStringBody (legend ++ '"' :: rest) = some (legend, rest) := by
  intro legend
  induction legend with
  | nil => intro rest _; simp [parseStringBody]
  | cons c cs ih =>
    intro rest hb
    rw [List.all_cons, Bool.and_eq_true] at hb
    have hpack := hb.1
    simp only [benignChar, decide_eq_true_eq, Bool.and_eq_true, Bool.decide_and] at hpack
    have h32 : ¬(c.toNat < 32) := by omega
    have hq : c ≠ '"' := hpack.2.1
    have hbs : c ≠ '\\' := hpack.2.2
    rw [List.cons_append]
    simp [parseStringBody, hq, hbs, h32, ih rest hb.2]


theorem parseVal_single (legend : List Char)
    (hb : legend.all benignChar = true) (n : Nat) :
    parseVal (n + 3) ('[' :: '[' :: '"' :: legend ++ ['"', ']', ']']) =
      some (.arr [.arr [.str legend]], []) := by
  simp [parseVal, parseArrRest, skipWs, isJsonWs,
    parseStringBody_benign legend [']', ']'] hb]


theorem fromStr_single (legend : List Char)
    (hb : legend.all benignChar = true) :
    fromStr ('[' :: '[' :: '"' :: legend ++ ['"', ']', ']']) =
      .ok [.arr [.str legend]] := by
  unfold fromStr
  rw [show ('[' :: '[' :: '"' :: legend ++ ['"', ']', ']']).length + 2 =
      legend.length + 5 + 3 from by simp]
  rw [parseVal_single legend hb]
  simp [skipWs]

theorem processRows_single (legend : List Char)
    (hnl : ∀ c ∈ legend, c ≠ '\n') :
    processRows initState [.arr [.str legend]] =
      .ok ⟨⟨1, 1⟩, KeyProperties.empty,
           [⟨[legend], KeyProperties.empty, ⟨0, 1⟩, ⟨0, 1⟩⟩]⟩ := by
  simp [processRows, processRow, processItem, List.foldlM, JValue.isObj,
    initState, hasRot, KeyProperties.empty, splitNl_eq_self legend hnl,
    resetTransients, Bind.bind, Except.bind, pure, Except.pure,
    Q.add, Q.zero, Q.one]

theorem parse_single (legend : List Char)
    (hb : legend.all benignChar = true) :
    Keyboard.parse ('[' :: '"' :: legend ++ ['"', ']']) =
      .ok ⟨none, [⟨[legend], KeyProperties.empty, ⟨0, 1⟩, ⟨0, 1⟩⟩]⟩ := by
  have hmem : ∀ c ∈ legend, benignChar c = true := by
    rw [List.all_eq_true] at hb
    exact hb
  have hcr : ∀ c ∈ ('[' :: '"' :: legend ++ ['"', ']']), c ≠ '\r' := by
    intro c hc heq
    subst heq
    rcases List.mem_cons.mp hc with h | hc
    · exact absurd h (by decide)
    rcases List.mem_cons.mp hc with h | hc
    · exact absurd h (by decide)
    rcases List.mem_append.mp hc with h | h
    · exact absurd (hmem _ h) (by decide)
    · exact absurd h (by decide)
  have hnl : ∀ c ∈ legend, c ≠ '\n' := by
    intro c hc heq
    subst heq
    exact absurd (hmem _ hc) (by decide)
  unfold Keyboard.parse
  rw [normalizeNl_eq_self _ hcr]
  rw [show ('[' :: '"' :: legend ++ ['"', ']']) =
      '[' :: (('"' :: legend) ++ ['"']) ++ [']'] from by simp]
  rw [trimChars_bracketed]
  rw [show ('[' :: (('"' :: legend) ++ ['"']) ++ [']']) =
      '[' :: '"' :: legend ++ ['"', ']'] from by simp]
  rw [preprocess_single legend hb, fromStr_single legend hb]
  simp only [Bind.bind, Except.bind, JValue.isObj, Bool.false_eq_true, reduceIte]
  rw [processRows_single legend hnl]


theorem toRaw_single (legend : List Char) (x y : Q) :
    Keyboard.to_raw_format ⟨none, [⟨[legend], KeyProperties.empty, x, y⟩]⟩ =
      '[' :: '"' :: legend ++ ['"', ']'] := by
  simp [Keyboard.to_raw_format, groupRows, groupRowsGo, renderRows, renderKeys,
    format_property_object, partsOf, optQeq, KeyProperties.empty,
    intercalate_single]

/-- Claim C1, amended: round-trip idempotence of the serializer holds for
every keyboard with no metadata and exactly one key whose properties are
all unset and whose single legend consists of benign characters (no
quote, no backslash, no control character): serializing, parsing the
output, and serializing again reproduces the text byte for byte.  (The
general claim fails; see the counterexample.) -/
theorem C1_roundtrip_single_key (legend : List Char) (x y : Q)
    (hb : legend.all benignChar = true) :
    (Keyboard.parse
        (Keyboard.to_raw_format
          ⟨none, [⟨[legend], KeyProperties.empty, x, y⟩]⟩)).map
      Keyboard.to_raw_format =
      .ok (Keyboard.to_raw_format
        ⟨none, [⟨[legend], KeyProperties.empty, x, y⟩]⟩) := by
  rw [toRaw_single, parse_single legend hb]
  simp only [Except.map]
  rw [toRaw_single]

/-- Claim C1, witness: the single-key keyboard with legend `AB` (and a
stored coordinate that plays no role in serialization) round-trips to
byte-identical text. -/
theorem C1_roundtrip_single_key_witness :
    "AB".toList.all benignChar = true ∧
    (Keyboard.parse
        (Keyboard.to_raw_format
          ⟨none, [⟨["AB".toList], KeyProperties.empty, ⟨5, 2⟩, ⟨0, 1⟩⟩]⟩)).map
      Keyboard.to_raw_format =
      .ok (Keyboard.to_raw_format
        ⟨none, [⟨["AB".toList], KeyProperties.empty, ⟨5, 2⟩, ⟨0, 1⟩⟩]⟩) :=
  ⟨by decide, C1_roundtrip_single_key "AB".toList ⟨5, 2⟩ ⟨0, 1⟩ (by decide)⟩

end Kale
